import Mathlib

/-!
Verification of the FINM32500-HW8 trading system against its natural-language
specification.  The Python sources are shallowly embedded: byte strings become
`List Char` (every payload in this system is ASCII text, and the UTF-8 decode
step is the identity on it), prices become exact rationals `ℚ` (every concrete
price in the spec's scenarios is exactly representable in binary64, so the
rational model is faithful on them), and the blocking socket-read loop becomes
a function over the finite list of chunks the transport delivers, where the
end of the list models `recv` returning zero bytes (orderly close).
-/

namespace TradingSystem



/-- `MESSAGE_DELIMITER = b'\n'` from `OrderBook.py` / `OrderManager.py` /
`Strategy.py` / `gateway.py` (a single byte). -/
def MESSAGE_DELIMITER : Char := '\n'

/-- The exceptions the three consumer read loops can raise on a dead transport:
`SocketStreamClosed` (declared in `shared_memory_utils.py`, raised by
`OrderBook.receive_framed_message` and `Strategy.receive_framed_news_message`)
and the builtin `ConnectionResetError` (raised by
`OrderManager.receive_framed_message`).  Both realize the spec's abstract
`StreamClosed` failure: each is exactly what the raising role's own
reconnection handler catches. -/
inductive SockError where
  | socketStreamClosed
  | connectionReset
deriving DecidableEq, Repr

/-- Model of `bytes.find(MESSAGE_DELIMITER)` on the receive buffer: index of
the first delimiter, `none` for Python's `-1`. -/
def findDelimiter : List Char → Option Nat
  | [] => none
  | c :: cs =>
    if c = MESSAGE_DELIMITER then some 0
    else (findDelimiter cs).map (· + 1)

/-- The buffer inspection at the top of each loop iteration:
`recv_buffer.find(MESSAGE_DELIMITER)`, and on a hit the two slices
`recv_buffer[:delimiter_pos]` (the message) and
`recv_buffer[delimiter_pos + 1:]` (the retained remainder). -/
def bufferedSplit (buf : List Char) : Option (List Char × List Char) :=
  match findDelimiter buf with
  | some p => some (buf.take p, buf.drop (p + 1))
  | none => none

/-- Recursion core of the `receive_framed_message` loops, structural on the
list of chunks still deliverable by the transport. -/
def receiveFramedGo (closedErr : SockError) :
    List (List Char) → List Char →
    Except SockError (List Char × List Char × List (List Char))
  | [], buf =>
    match bufferedSplit buf with
    | some (m, b) => .ok (m, b, [])
    | none => .error closedErr
  | c :: cs, buf =>
    match bufferedSplit buf with
    | some (m, b) => .ok (m, b, c :: cs)
    | none =>
      if c.isEmpty then .error closedErr
      else receiveFramedGo closedErr cs (buf ++ c)

/-- Shared body of the three `receive_framed_message` loops.  State passing:
`buf` is the role's global `recv_buffer`, `chunks` the data the transport will
deliver on successive `sock.recv(4096)` calls; `[]` (and likewise an empty
chunk) models `recv` returning zero bytes, i.e. the peer closed.  On success
it returns the decoded message together with the updated buffer and the chunks
not yet fetched. -/
def receiveFramed (closedErr : SockError) (buf : List Char)
    (chunks : List (List Char)) :
    Except SockError (List Char × List Char × List (List Char)) :=
  receiveFramedGo closedErr chunks buf

namespace OrderBook

/-- `OrderBook.receive_framed_message` (OrderBook.py lines 18-47): raises
`SocketStreamClosed` when the gateway price stream closes. -/
def receive_framed_message :
    List Char → List (List Char) →
    Except SockError (List Char × List Char × List (List Char)) :=
  receiveFramed .socketStreamClosed

end OrderBook

namespace OrderManager

/-- `OrderManager.receive_framed_message` (OrderManager.py lines 17-39):
raises `ConnectionResetError` when the strategy client closes. -/
def receive_framed_message :
    List Char → List (List Char) →
    Except SockError (List Char × List Char × List (List Char)) :=
  receiveFramed .connectionReset

end OrderManager

namespace Strategy

/-- `Strategy.receive_framed_news_message` (Strategy.py lines 49-68): raises
`SocketStreamClosed` when the gateway news stream closes. -/
def receive_framed_news_message :
    List Char → List (List Char) →
    Except SockError (List Char × List Char × List (List Char)) :=
  receiveFramed .socketStreamClosed

end Strategy

/-- The chunk delivering three concatenated delimiter-terminated payloads. -/
def threeMessagesChunk (p1 p2 p3 : List Char) : List Char :=
  p1 ++ MESSAGE_DELIMITER :: (p2 ++ MESSAGE_DELIMITER :: (p3 ++ [MESSAGE_DELIMITER]))

/-! ### SharedPriceBook (`shared_memory_utils.py`)

The shared-memory record array of `(symbol, price)` rows becomes the two
parallel lists below.  The numpy `U10` symbol width is irrelevant here: every
symbol in the configured universe is at most 10 characters, so no truncation
occurs, and `update` writes only the `price` field in any case.  Every method
body runs under `with self.lock`, so each `update` / `read_all` is one atomic
step; prices are exact rationals. -/

/-- Python string comparison `a <= b`: lexicographic on code points. -/
def strLe : List Char → List Char → Bool
  | [], _ => true
  | _ :: _, [] => false
  | x :: xs, y :: ys =>
    if x = y then strLe xs ys else decide (x.toNat < y.toNat)

/-- One insertion step of a stable insertion sort. -/
def insertSym (s : List Char) : List (List Char) → List (List Char)
  | [] => [s]
  | t :: ts => if strLe s t then s :: t :: ts else t :: insertSym s ts

/-- `sorted(symbols)`: Python's stable sort; a stable insertion sort produces
the identical list. -/
def pySorted : List (List Char) → List (List Char)
  | [] => []
  | s :: ss => insertSym s (pySorted ss)

/-- `self.symbol_to_index = {sym: i for i, sym in enumerate(self.symbols)}`:
the index a symbol is mapped to.  A Python dict comprehension lets a later
duplicate key overwrite an earlier one, so this is the index of the *last*
occurrence. -/
def lastIdxOf : List (List Char) → List Char → Option Nat
  | [], _ => none
  | t :: ts, s =>
    match lastIdxOf ts s with
    | some j => some (j + 1)
    | none => if t = s then some 0 else none

structure SharedPriceBook where
  symbols : List (List Char)
  prices : List ℚ
deriving DecidableEq, Repr

namespace SharedPriceBook

/-- Creation (`__init__` with `create=True`): `self.symbols = sorted(symbols)`
and every price initialized to `0.0`. -/
def create (symbols : List (List Char)) : SharedPriceBook :=
  let sortedSyms := pySorted symbols
  ⟨sortedSyms, List.replicate sortedSyms.length 0⟩

/-- `SharedPriceBook.update` (shared_memory_utils.py lines 56-67): a silent
no-op when `symbol not in self.symbol_to_index`, otherwise an in-place write
of the price field at the symbol's fixed index, under the lock. -/
def update (b : SharedPriceBook) (symbol : List Char) (price : ℚ) :
    SharedPriceBook :=
  match lastIdxOf b.symbols symbol with
  | none => b
  | some i => ⟨b.symbols, b.prices.set i price⟩

/-- `SharedPriceBook.read_all` (shared_memory_utils.py lines 69-76): a copy of
the current `(symbol, price)` rows, taken under the lock. -/
def read_all (b : SharedPriceBook) : List (List Char × ℚ) :=
  b.symbols.zip b.prices

end SharedPriceBook

/-- The `["AAPL", "MSFT"]` symbol universe of the spec's scenarios. -/
def AAPL : List Char := ['A', 'A', 'P', 'L']

def MSFT : List Char := ['M', 'S', 'F', 'T']

/-! ### Connection loops and buffer reset (claim C7) -/

/-- Repeatedly call the framed read until the transport fails, collecting the
messages; also returns the final contents of the receive buffer (the partial
message pending when the connection died).  The fuel is an upper bound on the
number of messages; `drainWithLeftover` supplies one that cannot run out
(each message consumes at least its delimiter from the finite stream). -/
def drainAux (e : SockError) :
    Nat → List Char → List (List Char) → List (List Char) × List Char
  | 0, buf, _ => ([], buf)
  | fuel + 1, buf, chunks =>
    match receiveFramed e buf chunks with
    | .error _ => ([], buf)
    | .ok (m, b', c') =>
      let r := drainAux e fuel b' c'
      (m :: r.1, r.2)

/-- The whole per-connection inner read loop of a consumer role. -/
def drainWithLeftover (e : SockError) (buf : List Char)
    (chunks : List (List Char)) : List (List Char) × List Char :=
  drainAux e (buf.length + chunks.flatten.length + 1) buf chunks

/-- `recv_buffer = b''` — "Clear buffer on fresh connection", executed on
every transition into the connected state (OrderBook.py line 73,
OrderManager.py line 67, Strategy.py line 132).  Whatever the global buffer
held from the previous connection is discarded. -/
def clearBufferOnConnect (staleBuf : List Char) : List Char := []

/-- Two successive connections of a consumer role, with the global
`recv_buffer` threaded through exactly as in the source: it starts empty, is
cleared on each (re)connect, and `r1.2` is the stale partial data it holds
when the first connection dies. -/
def twoConnectionMessages (e : SockError) (c1 c2 : List (List Char)) :
    List (List Char) × List (List Char) :=
  let r1 := drainWithLeftover e (clearBufferOnConnect []) c1
  let r2 := drainWithLeftover e (clearBufferOnConnect r1.2) c2
  (r1.1, r2.1)

/-! ### Price message parsing (`run_orderbook`, OrderBook.py lines 75-131) -/

/-- Whether `sub` occurs in `s` at position `i`. -/
def occursAt (s sub : List Char) (i : Nat) : Bool :=
  sub.isPrefixOf (s.drop i)

/-- Python `s.find(sub, start)`: smallest index `i ≥ start` at which `sub`
occurs, `none` for `-1`. -/
def pyFind (s sub : List Char) (start : Nat) : Option Nat :=
  ((List.range (s.length + 1)).filter
    fun i => decide (start ≤ i) && occursAt s sub i).head?

/-- Python slice `s[a:b]` for `0 ≤ a, b`. -/
def pySlice (s : List Char) (a b : Nat) : List Char :=
  (s.take b).drop a

def isPySpace (c : Char) : Bool :=
  c = ' ' || c = '\t' || c = '\n' || c = '\r'

/-- Python `str.strip()` (on the whitespace shapes occurring here). -/
def pyStrip (s : List Char) : List Char :=
  ((s.dropWhile isPySpace).reverse.dropWhile isPySpace).reverse

def isDigitChar (c : Char) : Bool :=
  48 ≤ c.toNat && c.toNat ≤ 57

def digitVal (c : Char) : Nat := c.toNat - 48

def digitsVal (cs : List Char) : Nat :=
  cs.foldl (fun a c => 10 * a + digitVal c) 0

/-- Greedily take leading decimal digits. -/
def takeDigits : List Char → List Char × List Char
  | [] => ([], [])
  | c :: cs =>
    if isDigitChar c then
      let r := takeDigits cs
      (c :: r.1, r.2)
    else ([], c :: cs)

/-- The decimal parts of a parsed float literal: sign, integer-part value,
fraction-part value, number of fraction digits. -/
structure FloatParts where
  neg : Bool
  ip : Nat
  fp : Nat
  flen : Nat
deriving DecidableEq, Repr

/-- The rational value of a parsed decimal. -/
def ratOfParts (p : FloatParts) : ℚ :=
  (if p.neg then -1 else 1) * ((p.ip : ℚ) + (p.fp : ℚ) / 10 ^ p.flen)

/-- Digit scanning of Python `float(s)` after the sign. -/
def pyFloatPartsCore (neg : Bool) (s : List Char) : Option FloatParts :=
  let ipr := takeDigits s
  match ipr.2 with
  | [] => if ipr.1.isEmpty then none else some ⟨neg, digitsVal ipr.1, 0, 0⟩
  | '.' :: r2 =>
    let fpr := takeDigits r2
    if fpr.2.isEmpty then
      if ipr.1.isEmpty && fpr.1.isEmpty then none
      else some ⟨neg, digitsVal ipr.1, digitsVal fpr.1, fpr.1.length⟩
    else none
  | _ => none

/-- Parse of Python `float(s)` on the decimal shapes this system produces:
optional sign, digits, optional fraction (`"12"`, `"12.5"`, `".5"`, `"12."`).
Exponent, `inf`/`nan` and underscore forms never occur here and are outside
the model.  `none` models the `ValueError` the code catches. -/
def pyFloatParts (s : List Char) : Option FloatParts :=
  match s with
  | '-' :: t => pyFloatPartsCore true t
  | '+' :: t => pyFloatPartsCore false t
  | _ => pyFloatPartsCore false s

/-- Python `float(s)` as a rational value. -/
def pyFloat (s : List Char) : Option ℚ :=
  (pyFloatParts s).map ratOfParts

/-- The inner `for next_symbol in symbols` loop computing `end_index`:
starting from `len(raw_message)`, take the minimum over every *other*
symbol's first occurrence at or after `start`. -/
def computeEnd (raw : List Char) (symbols : List (List Char))
    (sym : List Char) (start : Nat) : Nat :=
  symbols.foldl
    (fun e next =>
      if next ≠ sym then
        match pyFind raw next start with
        | some j => min e j
        | none => e
      else e)
    raw.length

/-- What one iteration of the `for symbol in symbols` loop does for `sym`:
skip (symbol not in the message), abort the message (`float()` raised
`ValueError`), or produce the parsed price parts. -/
inductive SymStep where
  | absent
  | badPrice
  | price (p : FloatParts)
deriving DecidableEq, Repr

/-- The slice-and-convert body of one loop iteration:
`start_index = raw_message.find(symbol) + len(symbol) + 1`, `end_index` from
the inner loop, `price = float(price_str.strip())`. -/
def symStep (allSyms : List (List Char)) (raw : List Char)
    (sym : List Char) : SymStep :=
  match pyFind raw sym 0 with
  | none => .absent
  | some i0 =>
    let startIdx := i0 + sym.length + 1
    let endIdx := computeEnd raw allSyms sym startIdx
    let priceStr := pySlice raw startIdx endIdx
    match pyFloatParts (pyStrip priceStr) with
    | none => .badPrice
    | some p => .price p

/-- The `for symbol in symbols` parsing loop of `run_orderbook`: for each
configured symbol occurring in the message, slice out the price substring,
convert it, and `update` the shared book.  A conversion failure raises
`ValueError`, which the per-message handler catches: the updates already made
stand, the rest of the message is skipped, and the connection lives on. -/
def processPriceSymbols (allSyms : List (List Char)) (raw : List Char) :
    SharedPriceBook → List (List Char) → SharedPriceBook
  | book, [] => book
  | book, sym :: rest =>
    match symStep allSyms raw sym with
    | .absent => processPriceSymbols allSyms raw book rest
    | .badPrice => book
    | .price p => processPriceSymbols allSyms raw (book.update sym (ratOfParts p)) rest

/-- One iteration of `run_orderbook`'s message loop applied to a received
message: empty messages are skipped (`if not raw_message: continue`),
otherwise the message is parsed and applied to the shared book. -/
def orderbookHandleMessage (book : SharedPriceBook)
    (symbols : List (List Char)) (raw : List Char) : SharedPriceBook :=
  if raw.isEmpty then book else processPriceSymbols symbols raw book symbols

/-! ### Interleaved writes and snapshots (claim C9)

Every body of `update` and `read_all` runs under `with self.lock`, so in any
cross-process execution each of them is one atomic step; an interleaving is
therefore a sequence of table operations, and a snapshot taken after any
prefix observes `read_all` of the state the prefix produced. -/

/-- One atomic operation on the shared table. -/
inductive TableOp where
  | update (sym : List Char) (price : ℚ)
  | snapshot
deriving Repr

/-- Execute a sequence of atomic table operations from a given state;
`snapshot` does not modify the table. -/
def runTrace (b : SharedPriceBook) : List TableOp → SharedPriceBook
  | [] => b
  | .update s p :: ops => runTrace (b.update s p) ops
  | .snapshot :: ops => runTrace b ops

/-! ### Strategy order generation (claim C10)

`StrategyState.position` is a per-symbol dictionary and the order-generation
block (Strategy.py lines 184-209) touches only the entry of the symbol being
processed, so each symbol's orders evolve independently; the model below is
that per-symbol component.  `final_signal` is whatever the signal arithmetic
produced for this symbol on this news tick — the alternation property holds
for every signal sequence, so it is left universally quantified. -/

inductive Side where
  | BUY
  | SELL
deriving DecidableEq, Repr

inductive Position where
  | NONE
  | LONG
  | SHORT
deriving DecidableEq, Repr

inductive Signal where
  | BUY
  | SELL
  | NEUTRAL
deriving DecidableEq, Repr

/-- Lines 184-209 of `run_strategy` for one symbol and one tick:
`if final_signal == 'BUY' and position != 'LONG'` send a BUY and set the
position to LONG, `elif final_signal == 'SELL' and position != 'SHORT'` send
a SELL and set the position to SHORT, else do nothing. -/
def orderStep (pos : Position) (sig : Signal) : Option Side × Position :=
  match sig with
  | .BUY => if pos ≠ .LONG then (some .BUY, .LONG) else (none, pos)
  | .SELL => if pos ≠ .SHORT then (some .SELL, .SHORT) else (none, pos)
  | .NEUTRAL => (none, pos)

/-- The orders sent for one symbol over a run of the strategy loop, given the
sequence of final signals computed for that symbol. -/
def runOrders : Position → List Signal → List Side
  | _, [] => []
  | pos, sig :: sigs =>
    match orderStep pos sig with
    | (some s, pos') => s :: runOrders pos' sigs
    | (none, pos') => runOrders pos' sigs

/-- Consecutive elements always differ. -/
def Alternating : List Side → Prop
  | [] => True
  | [_] => True
  | a :: b :: t => a ≠ b ∧ Alternating (b :: t)

/-! ### JSON order wire format (`Strategy._send_order` / `run_ordermanager`)

`json.dumps` / `json.loads` on the flat order objects this channel carries.
A Python float is represented by its `repr` decimal (`FloatParts`); Python
guarantees `float(repr(x)) == x`, so value-level round-tripping coincides
with the representation-level round-tripping proved here.  The parser models
the fragment of `json.loads` these objects exercise: one flat object of
string keys and string/number scalars, `ensure_ascii` text without escape
sequences, no exponent-form numbers. -/

def qchar : Char := Char.ofNat 34

def lbrace : Char := Char.ofNat 123

def rbrace : Char := Char.ofNat 125

def digitChar (d : Nat) : Char := Char.ofNat (48 + d)

/-- Decimal digits of `n`, most significant first, by fuel-guarded division
(the fuel `n + 1` never runs out). -/
def natDigitsFuel : Nat → Nat → List Char
  | 0, _ => []
  | f + 1, n =>
    if n < 10 then [digitChar n]
    else natDigitsFuel f (n / 10) ++ [digitChar (n % 10)]

def natToChars (n : Nat) : List Char := natDigitsFuel (n + 1) n

/-- `repr` of a Python int. -/
def intToChars (i : Int) : List Char :=
  if i < 0 then '-' :: natToChars i.natAbs else natToChars i.natAbs

/-- Exactly `k` decimal digits of `m`, zero-padded. -/
def padDigits : Nat → Nat → List Char
  | 0, _ => []
  | k + 1, m => padDigits k (m / 10) ++ [digitChar (m % 10)]

/-- `repr` of a Python float from its decimal parts (integer digits, point,
`flen` fraction digits). -/
def floatToChars (f : FloatParts) : List Char :=
  (cond f.neg ['-'] []) ++ natToChars f.ip ++ '.' :: padDigits f.flen f.fp

/-- JSON scalar values occurring on the order channel. -/
inductive JVal where
  | jstr (s : List Char)
  | jint (n : Int)
  | jfloat (f : FloatParts)
deriving DecidableEq, Repr

def jvalToChars : JVal → List Char
  | .jstr s => qchar :: s ++ [qchar]
  | .jint n => intToChars n
  | .jfloat f => floatToChars f

def pairToChars : List Char × JVal → List Char
  | (k, v) => qchar :: k ++ qchar :: ':' :: ' ' :: jvalToChars v

def joinComma : List (List Char) → List Char
  | [] => []
  | [x] => x
  | x :: y :: t => x ++ ',' :: ' ' :: joinComma (y :: t)

/-- `json.dumps` of a flat object, with the default `", "` and `": "`
separators and insertion-ordered keys. -/
def dumpsObj (ps : List (List Char × JVal)) : List Char :=
  lbrace :: joinComma (ps.map pairToChars) ++ [rbrace]

def isJsonWs (c : Char) : Bool :=
  c = ' ' || c = '\t' || c = '\n' || c = '\r'

def skipWs (s : List Char) : List Char := s.dropWhile isJsonWs

/-- Body of a JSON string after the opening quote, up to the closing quote
(escape-free fragment). -/
def parseStrBody : List Char → Option (List Char × List Char)
  | [] => none
  | c :: cs =>
    if c = qchar then some ([], cs)
    else
      match parseStrBody cs with
      | some r => some (c :: r.1, r.2)
      | none => none

def intOfParts (neg : Bool) (ds : List Char) : Int :=
  if neg then -(digitsVal ds : Int) else (digitsVal ds : Int)

/-- The digits of a JSON number token after an optional minus: digits, then
optionally a point and fraction digits.  A token without a fraction decodes
to a Python int, one with a fraction to a float. -/
def parseNumAfterSign (neg : Bool) (s : List Char) : Option (JVal × List Char) :=
  let ipr := takeDigits s
  if ipr.1.isEmpty then none
  else
    match ipr.2 with
    | c :: r2 =>
      if c = '.' then
        let fpr := takeDigits r2
        if fpr.1.isEmpty then none
        else some (.jfloat ⟨neg, digitsVal ipr.1, digitsVal fpr.1, fpr.1.length⟩, fpr.2)
      else some (.jint (intOfParts neg ipr.1), c :: r2)
    | [] => some (.jint (intOfParts neg ipr.1), [])

/-- A JSON number token: optional minus, then digits. -/
def parseNumberTok (s : List Char) : Option (JVal × List Char) :=
  match s with
  | c :: t => if c = '-' then parseNumAfterSign true t else parseNumAfterSign false s
  | [] => none

/-- A JSON scalar: a string or a number. -/
def parseJsonValue (s : List Char) : Option (JVal × List Char) :=
  match s with
  | [] => none
  | c :: cs =>
    if c = qchar then
      match parseStrBody cs with
      | some r => some (.jstr r.1, r.2)
      | none => none
    else parseNumberTok s

/-- The members of a JSON object after the opening brace: `"key": value`
pairs separated by commas, ending at the closing brace.  Fuel bounds the
member count; callers pass more fuel than the input has characters. -/
def parseMembers : Nat → List Char → Option (List (List Char × JVal) × List Char)
  | 0, _ => none
  | fuel + 1, s =>
    match skipWs s with
    | [] => none
    | c :: cs =>
      if c = qchar then
        match parseStrBody cs with
        | none => none
        | some kr =>
          match skipWs kr.2 with
          | ':' :: r2 =>
            match parseJsonValue (skipWs r2) with
            | none => none
            | some vr =>
              match skipWs vr.2 with
              | c2 :: r5 =>
                if c2 = ',' then
                  match parseMembers fuel r5 with
                  | some mr => some ((kr.1, vr.1) :: mr.1, mr.2)
                  | none => none
                else if c2 = rbrace then some ([(kr.1, vr.1)], r5)
                else none
              | [] => none
          | _ => none
      else none

/-- The object body after the opening brace: either an immediately closing
brace (empty object) or a member list. -/
def loadsObjInner (fuel : Nat) (body : List Char) :
    Option (List (List Char × JVal)) :=
  match body with
  | [] => none
  | d :: t1 =>
    if d = rbrace then
      if (skipWs t1).isEmpty then some [] else none
    else
      match parseMembers fuel body with
      | some mr => if (skipWs mr.2).isEmpty then some mr.1 else none
      | none => none

def loadsObjCore (fuel : Nat) : List Char → Option (List (List Char × JVal))
  | [] => none
  | c :: cs => if c = lbrace then loadsObjInner fuel (skipWs cs) else none

/-- `json.loads` restricted to one flat object, requiring the whole document
to be consumed (`json.loads` raises on trailing data). -/
def loadsObj (s : List Char) : Option (List (List Char × JVal)) :=
  loadsObjCore (s.length + 1) (skipWs s)

/-- The order record carried on the order channel (`_send_order`); float
fields are carried as their `repr` decimals. -/
structure Order where
  order_id : Int
  symbol : List Char
  side : Side
  quantity : Int
  price : FloatParts
  timestamp : FloatParts
deriving DecidableEq, Repr

def sideStr : Side → List Char
  | .BUY => ['B', 'U', 'Y']
  | .SELL => ['S', 'E', 'L', 'L']

/-- The order dict built in `run_strategy` lines 186-193 / 199-206, in its
insertion order. -/
def orderJson (o : Order) : List (List Char × JVal) :=
  [("order_id".toList, .jint o.order_id),
   ("symbol".toList, .jstr o.symbol),
   ("side".toList, .jstr (sideStr o.side)),
   ("quantity".toList, .jint o.quantity),
   ("price".toList, .jfloat o.price),
   ("timestamp".toList, .jfloat o.timestamp)]

/-- `_send_order` (Strategy.py lines 71-80):
`json.dumps(order).encode('utf-8') + MESSAGE_DELIMITER`. -/
def sendOrderBytes (o : Order) : List Char :=
  dumpsObj (orderJson o) ++ [MESSAGE_DELIMITER]

/-- Printable ASCII other than the quote and the backslash: such characters
pass through `json.dumps` unescaped and contain no delimiter byte. -/
def plainChar (c : Char) : Bool :=
  32 ≤ c.toNat && c.toNat ≤ 126 && c.toNat ≠ 34 && c.toNat ≠ 92

def ValidJVal : JVal → Prop
  | .jstr s => ∀ c ∈ s, plainChar c = true
  | .jint _ => True
  | .jfloat f => 1 ≤ f.flen ∧ f.fp < 10 ^ f.flen

/-- A valid order record: the symbol is plain text (this wire format cannot
carry the delimiter inside a payload in any case), and each float field is a
well-formed `repr` decimal (at least one fraction digit, fraction value
within its width — every `repr` output satisfies this). -/
def ValidOrder (o : Order) : Prop :=
  (∀ c ∈ o.symbol, plainChar c = true) ∧
  1 ≤ o.price.flen ∧ o.price.fp < 10 ^ o.price.flen ∧
  1 ≤ o.timestamp.flen ∧ o.timestamp.fp < 10 ^ o.timestamp.flen

instance : DecidablePred ValidOrder := fun o => by
  rw [ValidOrder]
  infer_instance

def sideOfStr (s : List Char) : Option Side :=
  if s = ['B', 'U', 'Y'] then some .BUY
  else if s = ['S', 'E', 'L', 'L'] then some .SELL
  else none

/-- Dictionary lookup in the decoded object (the keys of an order object are
distinct, so first match and dict lookup agree). -/
def jlookup (k : List Char) : List (List Char × JVal) → Option JVal
  | [] => none
  | kv :: t => if kv.1 = k then some kv.2 else jlookup k t

/-- The order record the receiving side reads back out of the decoded dict
(`order['order_id']`, `order['symbol']`, ...). -/
def orderFromPairs (ps : List (List Char × JVal)) : Option Order :=
  match jlookup "order_id".toList ps, jlookup "symbol".toList ps,
      jlookup "side".toList ps, jlookup "quantity".toList ps,
      jlookup "price".toList ps, jlookup "timestamp".toList ps with
  | some (.jint oid), some (.jstr sym), some (.jstr sd), some (.jint q),
      some (.jfloat pr), some (.jfloat ts) =>
    match sideOfStr sd with
    | some side => some ⟨oid, sym, side, q, pr, ts⟩
    | none => none
  | _, _, _, _, _, _ => none

/-- A serializable key/value member of the order object: a plain-text key and
a well-formed scalar value. -/
def GoodPair (kv : List Char × JVal) : Prop :=
  (∀ c ∈ kv.1, plainChar c = true) ∧ ValidJVal kv.2

/-! ### Order-sink connection handling (claim C3)

`run_ordermanager`'s inner read loop (OrderManager.py lines 69-73) sits
inside one `try` whose handlers are attached to the OUTER `while True`
(lines 75-83).  A `ConnectionResetError` from the framed read is caught and
the server waits for a new client.  But `json.loads` raising
`JSONDecodeError` (line 79) — and likewise a missing-field or format error
in the `print` — also escapes the inner loop: the handler logs
"Serialization Error" and the outer loop returns to `server_socket.accept()`,
abandoning the current connection, whose remaining messages are never read.
The spec requires a malformed message to be logged and skipped without
terminating the connection; the price ingester (OrderBook.py lines 126-131)
implements that with a per-message `try`, the order sink does not. -/

/-- How the handling of one accepted connection ends. -/
inductive ConnEnd where
  | reset
  | parseAbort
deriving DecidableEq, Repr

/-- The order sink's processing of one accepted connection: the list of
order dicts it decodes and executes, and how the connection handling ends —
`.reset` for a peer disconnect, `.parseAbort` for a JSON decode failure
(which the outer handler turns into waiting for a new connection).  Fuel
bounds the iterations; the wrapper supplies more than the stream can use. -/
def omProcessAux :
    Nat → List Char → List (List Char) →
    List (List (List Char × JVal)) × ConnEnd
  | 0, _, _ => ([], .reset)
  | fuel + 1, buf, chunks =>
    match OrderManager.receive_framed_message buf chunks with
    | .error _ => ([], .reset)
    | .ok (msg, b', c') =>
      match loadsObj msg with
      | none => ([], .parseAbort)
      | some ps =>
        let r := omProcessAux fuel b' c'
        (ps :: r.1, r.2)

def omProcessConnection (buf : List Char) (chunks : List (List Char)) :
    List (List (List Char × JVal)) × ConnEnd :=
  omProcessAux (buf.length + chunks.flatten.length + 1) buf chunks

def demoOrder1 : Order :=
  ⟨1, AAPL, .BUY, 10, ⟨false, 101, 5, 1⟩, ⟨false, 1000, 0, 1⟩⟩

def demoOrder2 : Order :=
  ⟨2, MSFT, .SELL, 10, ⟨false, 205, 5, 1⟩, ⟨false, 1001, 0, 1⟩⟩

/-- A connection stream delivering a valid order, then a malformed frame,
then another valid order. -/
def malformedOrderStream : List Char :=
  sendOrderBytes demoOrder1 ++ ("notjson".toList ++ ['\n']) ++
    sendOrderBytes demoOrder2

/-! ### SharedPriceBook.cleanup (claim C8) -/

/-- The state `cleanup` acts on: whether `self.shm` holds a handle object
(it is never reset to `None`), whether this instance created the segment,
whether the local mapping has been closed, and whether the named backing
storage still exists system-wide. -/
structure ShmState where
  shm : Bool
  is_creator : Bool
  closedLocal : Bool
  storage : Bool
deriving DecidableEq, Repr

inductive ShmError where
  | fileNotFound
deriving DecidableEq, Repr

/-- `SharedMemory.close()`: releases the local mapping; guarded internally,
so calling it again is a no-op and it never raises. -/
def shm_close (s : ShmState) : ShmState := { s with closedLocal := true }

/-- `SharedMemory.unlink()`: removes the named segment, raising
`FileNotFoundError` if it is already gone. -/
def shm_unlink (s : ShmState) : Except ShmError ShmState :=
  if s.storage then .ok { s with storage := false } else .error .fileNotFound

/-- `SharedPriceBook.cleanup` (shared_memory_utils.py lines 78-95):
`if self.shm:` close, then unlink only `if self.is_creator`, with
`FileNotFoundError` caught (`pass`) and every other exception caught and
logged inside the method.  The `Except` result records whether an exception
escapes the method — none ever does. -/
def cleanup (s : ShmState) : Except ShmError ShmState :=
  if s.shm then
    let s1 := shm_close s
    if s1.is_creator then
      match shm_unlink s1 with
      | .ok s2 => .ok s2
      | .error _ => .ok s1
    else .ok s1
  else .ok s

/-! ### Framing lemmas -/

theorem findDelimiter_eq_none (l : List Char) (h : MESSAGE_DELIMITER ∉ l) :
    findDelimiter l = none := by
  induction l with
  | nil => rfl
  | cons c cs ih =>
    simp only [List.mem_cons, not_or] at h
    simp only [findDelimiter, if_neg (Ne.symm h.1), ih h.2, Option.map_none']

theorem findDelimiter_append_delim (p t : List Char)
    (h : MESSAGE_DELIMITER ∉ p) :
    findDelimiter (p ++ MESSAGE_DELIMITER :: t) = some p.length := by
  induction p with
  | nil => simp [findDelimiter]
  | cons c cs ih =>
    simp only [List.mem_cons, not_or] at h
    simp only [List.cons_append, findDelimiter, if_neg (Ne.symm h.1)]
    rw [show cs.append (MESSAGE_DELIMITER :: t) = cs ++ MESSAGE_DELIMITER :: t from rfl,
      ih h.2]
    rfl

theorem take_length_append (p t : List Char) : (p ++ t).take p.length = p := by
  simp

theorem drop_length_succ_append (p : List Char) (c : Char) (t : List Char) :
    (p ++ c :: t).drop (p.length + 1) = t := by
  induction p with
  | nil => rfl
  | cons a as ih => simpa using ih

theorem bufferedSplit_append_delim (p t : List Char)
    (h : MESSAGE_DELIMITER ∉ p) :
    bufferedSplit (p ++ MESSAGE_DELIMITER :: t) = some (p, t) := by
  rw [bufferedSplit, findDelimiter_append_delim p t h]
  have h1 : (p ++ MESSAGE_DELIMITER :: t).take p.length = p := by
    simpa using take_length_append p (MESSAGE_DELIMITER :: t)
  simp only [h1, drop_length_succ_append]

theorem bufferedSplit_eq_none (l : List Char) (h : MESSAGE_DELIMITER ∉ l) :
    bufferedSplit l = none := by
  rw [bufferedSplit, findDelimiter_eq_none l h]

/-- Evaluating one read when the buffer already holds a complete message:
no transport fetch happens. -/
theorem receiveFramed_of_buffered (e : SockError) (p t : List Char)
    (chunks : List (List Char)) (h : MESSAGE_DELIMITER ∉ p) :
    receiveFramed e (p ++ MESSAGE_DELIMITER :: t) chunks = .ok (p, t, chunks) := by
  cases chunks <;>
    rw [receiveFramed, receiveFramedGo, bufferedSplit_append_delim p t h]

theorem isEmpty_append_cons (p : List Char) (c : Char) (t : List Char) :
    (p ++ c :: t).isEmpty = false := by
  cases p <;> rfl

/-- Evaluating one read that starts with an empty buffer and fetches a single
chunk already containing a complete message. -/
theorem receiveFramed_first (e : SockError) (p t : List Char)
    (rest : List (List Char)) (h : MESSAGE_DELIMITER ∉ p) :
    receiveFramed e [] ((p ++ MESSAGE_DELIMITER :: t) :: rest) = .ok (p, t, rest) := by
  rw [receiveFramed, receiveFramedGo]
  rw [show bufferedSplit [] = none from rfl, isEmpty_append_cons]
  simp only [Bool.false_eq_true, if_false, List.nil_append]
  exact receiveFramed_of_buffered e p t rest h

theorem receiveFramedGo_nil_none (e : SockError) (buf : List Char)
    (h : bufferedSplit buf = none) :
    receiveFramedGo e [] buf = .error e := by
  rw [receiveFramedGo, h]

theorem receiveFramedGo_cons_none (e : SockError) (c : List Char)
    (cs : List (List Char)) (buf : List Char) (h : bufferedSplit buf = none) :
    receiveFramedGo e (c :: cs) buf =
      if c.isEmpty then .error e else receiveFramedGo e cs (buf ++ c) := by
  rw [receiveFramedGo, h]

/-- If neither the buffer nor anything the transport will ever deliver
contains a delimiter, the read loop ends in the role's closed-stream error
(and returns nothing). -/
theorem receiveFramed_closed (e : SockError) (buf : List Char)
    (chunks : List (List Char))
    (h : MESSAGE_DELIMITER ∉ buf ++ chunks.flatten) :
    receiveFramed e buf chunks = .error e := by
  induction chunks generalizing buf with
  | nil =>
    have hb : MESSAGE_DELIMITER ∉ buf := fun hm => h (by simp [hm])
    rw [receiveFramed]
    exact receiveFramedGo_nil_none e buf (bufferedSplit_eq_none buf hb)
  | cons c cs ih =>
    simp only [List.flatten_cons, List.mem_append, not_or] at h
    obtain ⟨hb, hc', hcs⟩ := h
    rw [receiveFramed, receiveFramedGo_cons_none e c cs buf
      (bufferedSplit_eq_none buf hb)]
    by_cases hc : c.isEmpty
    · simp only [hc, if_true]
    · simp only [Bool.of_not_eq_true hc, Bool.false_eq_true, if_false]
      exact ih (buf ++ c)
        (by simp only [List.append_assoc, List.mem_append, not_or]
            exact ⟨hb, hc', hcs⟩)

/-- Claim C1: a byte stream whose first delivered chunk contains three
concatenated delimiter-terminated payloads yields exactly the three payloads,
in order, over three successive calls to `receive_framed_message`; the second
and third calls leave the pending transport chunks untouched (no further
fetch), and the receive buffer is empty afterwards.  Shown for the price
ingester (`OrderBook.receive_framed_message`) and the order sink
(`OrderManager.receive_framed_message`). -/
theorem claim_C1 (p1 p2 p3 : List Char) (rest : List (List Char))
    (h1 : MESSAGE_DELIMITER ∉ p1) (h2 : MESSAGE_DELIMITER ∉ p2)
    (h3 : MESSAGE_DELIMITER ∉ p3) :
    (OrderBook.receive_framed_message [] (threeMessagesChunk p1 p2 p3 :: rest) =
      .ok (p1, p2 ++ MESSAGE_DELIMITER :: (p3 ++ [MESSAGE_DELIMITER]), rest) ∧
     OrderBook.receive_framed_message
        (p2 ++ MESSAGE_DELIMITER :: (p3 ++ [MESSAGE_DELIMITER])) rest =
      .ok (p2, p3 ++ [MESSAGE_DELIMITER], rest) ∧
     OrderBook.receive_framed_message (p3 ++ [MESSAGE_DELIMITER]) rest =
      .ok (p3, [], rest)) ∧
    (OrderManager.receive_framed_message [] (threeMessagesChunk p1 p2 p3 :: rest) =
      .ok (p1, p2 ++ MESSAGE_DELIMITER :: (p3 ++ [MESSAGE_DELIMITER]), rest) ∧
     OrderManager.receive_framed_message
        (p2 ++ MESSAGE_DELIMITER :: (p3 ++ [MESSAGE_DELIMITER])) rest =
      .ok (p2, p3 ++ [MESSAGE_DELIMITER], rest) ∧
     OrderManager.receive_framed_message (p3 ++ [MESSAGE_DELIMITER]) rest =
      .ok (p3, [], rest)) := by
  refine ⟨⟨?_, ?_, ?_⟩, ⟨?_, ?_, ?_⟩⟩ <;>
    first
      | exact receiveFramed_first _ p1 _ rest h1
      | exact receiveFramed_of_buffered _ p2 _ rest h2
      | exact receiveFramed_of_buffered _ p3 _ rest h3

theorem claim_C1_witness :
    (MESSAGE_DELIMITER ∉ (['a'] : List Char)) ∧
    (MESSAGE_DELIMITER ∉ (['b'] : List Char)) ∧
    (MESSAGE_DELIMITER ∉ (['c'] : List Char)) ∧
    (OrderBook.receive_framed_message [] [threeMessagesChunk ['a'] ['b'] ['c']] =
      .ok (['a'], ['b'] ++ MESSAGE_DELIMITER :: (['c'] ++ [MESSAGE_DELIMITER]), []) ∧
     OrderBook.receive_framed_message
        (['b'] ++ MESSAGE_DELIMITER :: (['c'] ++ [MESSAGE_DELIMITER])) [] =
      .ok (['b'], ['c'] ++ [MESSAGE_DELIMITER], []) ∧
     OrderBook.receive_framed_message (['c'] ++ [MESSAGE_DELIMITER]) [] =
      .ok (['c'], [], [])) ∧
    (OrderManager.receive_framed_message [] [threeMessagesChunk ['a'] ['b'] ['c']] =
      .ok (['a'], ['b'] ++ MESSAGE_DELIMITER :: (['c'] ++ [MESSAGE_DELIMITER]), []) ∧
     OrderManager.receive_framed_message
        (['b'] ++ MESSAGE_DELIMITER :: (['c'] ++ [MESSAGE_DELIMITER])) [] =
      .ok (['b'], ['c'] ++ [MESSAGE_DELIMITER], []) ∧
     OrderManager.receive_framed_message (['c'] ++ [MESSAGE_DELIMITER]) [] =
      .ok (['c'], [], [])) :=
  ⟨by decide, by decide, by decide,
    claim_C1 ['a'] ['b'] ['c'] [] (by decide) (by decide) (by decide)⟩

/-- Claim C2: when the transport closes (a `recv` returning zero bytes)
before a complete delimiter-terminated message has been assembled, every
consumer role's framed read fails with its closed-stream exception — the
spec's `StreamClosed`, realized as `SocketStreamClosed` in the price ingester
and the news reader and as `ConnectionResetError` in the order sink — and no
partial message is returned. -/
theorem claim_C2 (buf : List Char) (chunks : List (List Char))
    (h : MESSAGE_DELIMITER ∉ buf ++ chunks.flatten) :
    OrderBook.receive_framed_message buf chunks = .error .socketStreamClosed ∧
    Strategy.receive_framed_news_message buf chunks = .error .socketStreamClosed ∧
    OrderManager.receive_framed_message buf chunks = .error .connectionReset :=
  ⟨receiveFramed_closed _ buf chunks h, receiveFramed_closed _ buf chunks h,
    receiveFramed_closed _ buf chunks h⟩

theorem claim_C2_witness :
    (MESSAGE_DELIMITER ∉ (['p', 'a'] : List Char) ++ [['r']].flatten) ∧
    (OrderBook.receive_framed_message ['p', 'a'] [['r']] =
        .error .socketStreamClosed ∧
     Strategy.receive_framed_news_message ['p', 'a'] [['r']] =
        .error .socketStreamClosed ∧
     OrderManager.receive_framed_message ['p', 'a'] [['r']] =
        .error .connectionReset) :=
  ⟨by decide, claim_C2 ['p', 'a'] [['r']] (by decide)⟩

theorem lastIdxOf_eq_none_iff (l : List (List Char)) (s : List Char) :
    lastIdxOf l s = none ↔ s ∉ l := by
  induction l with
  | nil => simp [lastIdxOf]
  | cons t ts ih =>
    rw [lastIdxOf]
    cases hrec : lastIdxOf ts s with
    | some j =>
      have hmem : s ∈ ts := by
        by_contra hn
        rw [ih.mpr hn] at hrec
        exact Option.noConfusion hrec
      simp [List.mem_cons, hmem]
    | none =>
      have hnot : s ∉ ts := ih.mp hrec
      by_cases ht : t = s
      · subst ht
        simp
      · rw [if_neg ht]
        constructor
        · intro _ hmem
          rcases List.mem_cons.mp hmem with h | h
          · exact ht h.symm
          · exact hnot h
        · intro _
          rfl

theorem lastIdxOf_get (l : List (List Char)) (s : List Char) (i : Nat)
    (h : lastIdxOf l s = some i) : l.get? i = some s := by
  induction l generalizing i with
  | nil => simp [lastIdxOf] at h
  | cons t ts ih =>
    rw [lastIdxOf] at h
    cases hrec : lastIdxOf ts s with
    | some j =>
      rw [hrec] at h
      obtain rfl : j + 1 = i := by simpa using h
      simpa using ih j hrec
    | none =>
      rw [hrec] at h
      by_cases ht : t = s
      · simp only [ht, if_pos rfl] at h
        obtain rfl : 0 = i := by simpa using h
        simp [ht]
      · simp [ht] at h

theorem lastIdxOf_lt_length (l : List (List Char)) (s : List Char) (i : Nat)
    (h : lastIdxOf l s = some i) : i < l.length := by
  have := lastIdxOf_get l s i h
  by_contra hge
  rw [List.get?_eq_none.mpr (Nat.le_of_not_lt hge)] at this
  exact Option.noConfusion this

/-- Claim C4: `update(symbol, price)` on a symbol of the fixed symbol set
writes `price` at that symbol's index and changes nothing else (not the
symbol list, not any other index); on a symbol outside the set it is a total
silent no-op. -/
theorem claim_C4 (b : SharedPriceBook) (s : List Char) (p : ℚ) :
    (s ∉ b.symbols → b.update s p = b) ∧
    (s ∈ b.symbols →
      (b.update s p).symbols = b.symbols ∧
      ∃ i, lastIdxOf b.symbols s = some i ∧ b.symbols.get? i = some s ∧
        (i < b.prices.length → (b.update s p).prices.get? i = some p) ∧
        ∀ j, j ≠ i → (b.update s p).prices.get? j = b.prices.get? j) := by
  constructor
  · intro hout
    rw [SharedPriceBook.update, (lastIdxOf_eq_none_iff b.symbols s).mpr hout]
  · intro hin
    cases hidx : lastIdxOf b.symbols s with
    | none => exact absurd ((lastIdxOf_eq_none_iff b.symbols s).mp hidx) (by simp [hin])
    | some i =>
      refine ⟨?_, i, rfl, lastIdxOf_get b.symbols s i hidx, ?_, ?_⟩
      · rw [SharedPriceBook.update, hidx]
      · intro hi
        rw [SharedPriceBook.update, hidx]
        simpa using List.get?_set_eq_of_lt p hi
      · intro j hj
        rw [SharedPriceBook.update, hidx]
        simpa using List.get?_set_ne p b.prices (Ne.symm hj)

theorem claim_C4_witness :
    (AAPL ∈ (SharedPriceBook.create [AAPL, MSFT]).symbols) ∧
    ((SharedPriceBook.create [AAPL, MSFT]).update AAPL 5).symbols =
        (SharedPriceBook.create [AAPL, MSFT]).symbols ∧
    ∃ i, lastIdxOf (SharedPriceBook.create [AAPL, MSFT]).symbols AAPL = some i ∧
      (SharedPriceBook.create [AAPL, MSFT]).symbols.get? i = some AAPL ∧
      (i < (SharedPriceBook.create [AAPL, MSFT]).prices.length →
        ((SharedPriceBook.create [AAPL, MSFT]).update AAPL 5).prices.get? i = some 5) ∧
      ∀ j, j ≠ i →
        ((SharedPriceBook.create [AAPL, MSFT]).update AAPL 5).prices.get? j =
          (SharedPriceBook.create [AAPL, MSFT]).prices.get? j :=
  ⟨by decide,
    (claim_C4 (SharedPriceBook.create [AAPL, MSFT]) AAPL 5).2 (by decide)⟩

/-- Claim C7: the receive buffer is never reused across connection instances:
whatever the first connection's stream was — in particular whatever partial
message it left buffered — the messages read on the next connection are
exactly those of that connection's own stream, read from an empty buffer.
Holds for every consumer role (`e` ranges over both closed-stream
exceptions). -/
theorem claim_C7 (e : SockError) (c1 c1' c2 : List (List Char)) :
    (twoConnectionMessages e c1 c2).2 = (twoConnectionMessages e c1' c2).2 ∧
    (twoConnectionMessages e c1 c2).2 = (drainWithLeftover e [] c2).1 := by
  exact ⟨rfl, rfl⟩

/-- Claim C5: with a table created for `{"AAPL","MSFT"}` (prices initialized
to 0.0), delivering the single framed chunk `"AAPL,101.00MSFT,205.50\n"`
makes the price ingester frame out the payload, parse it into the updates
`update("AAPL", 101.00)` and `update("MSFT", 205.50)`, and a subsequent
`read_all` snapshot returns exactly `{"AAPL": 101.00, "MSFT": 205.50}`. -/
theorem claim_C5 :
    OrderBook.receive_framed_message [] ["AAPL,101.00MSFT,205.50\n".toList] =
      .ok ("AAPL,101.00MSFT,205.50".toList, [], []) ∧
    orderbookHandleMessage (SharedPriceBook.create [AAPL, MSFT]) [AAPL, MSFT]
        "AAPL,101.00MSFT,205.50".toList =
      ((SharedPriceBook.create [AAPL, MSFT]).update AAPL 101).update MSFT 205.5 ∧
    (orderbookHandleMessage (SharedPriceBook.create [AAPL, MSFT]) [AAPL, MSFT]
        "AAPL,101.00MSFT,205.50".toList).read_all =
      [(AAPL, 101), (MSFT, 205.5)] := by
  have hq1 : ratOfParts ⟨false, 101, 0, 2⟩ = (101 : ℚ) := by
    norm_num [ratOfParts]
  have hq2 : ratOfParts ⟨false, 205, 50, 2⟩ = (205.5 : ℚ) := by
    norm_num [ratOfParts]
  have hcalc : orderbookHandleMessage (SharedPriceBook.create [AAPL, MSFT])
      [AAPL, MSFT] "AAPL,101.00MSFT,205.50".toList =
      ((SharedPriceBook.create [AAPL, MSFT]).update AAPL
          (ratOfParts ⟨false, 101, 0, 2⟩)).update MSFT
        (ratOfParts ⟨false, 205, 50, 2⟩) := by
    rfl
  have hmain : orderbookHandleMessage (SharedPriceBook.create [AAPL, MSFT])
      [AAPL, MSFT] "AAPL,101.00MSFT,205.50".toList =
      ((SharedPriceBook.create [AAPL, MSFT]).update AAPL 101).update MSFT 205.5 := by
    rw [hcalc, hq1, hq2]
  refine ⟨rfl, hmain, ?_⟩
  rw [hmain]
  rfl

theorem get?_replicate_zero (n i : Nat) (p : ℚ)
    (h : (List.replicate n (0 : ℚ)).get? i = some p) : p = 0 := by
  have hm : p ∈ List.replicate n (0 : ℚ) := List.get?_mem h
  exact List.eq_of_mem_replicate hm

/-- The inductive invariant behind claim C9: every stored price is either the
initialization value or was written (by `W`) for exactly the symbol stored at
the same row. -/
theorem runTrace_inv (W : List Char → ℚ → Prop) (ops : List TableOp)
    (hops : ∀ s p, TableOp.update s p ∈ ops → W s p)
    (b : SharedPriceBook)
    (hb : ∀ i s p, b.symbols.get? i = some s → b.prices.get? i = some p →
      p = 0 ∨ W s p) :
    ∀ i s p, (runTrace b ops).symbols.get? i = some s →
      (runTrace b ops).prices.get? i = some p → p = 0 ∨ W s p := by
  induction ops generalizing b with
  | nil => exact hb
  | cons op ops ih =>
    cases op with
    | snapshot =>
      exact ih (fun s p hm => hops s p (List.mem_cons_of_mem _ hm)) b hb
    | update s' p' =>
      refine ih (fun s p hm => hops s p (List.mem_cons_of_mem _ hm))
        (b.update s' p') ?_
      intro i s p hsym hpr
      rw [SharedPriceBook.update] at hsym hpr
      cases hidx : lastIdxOf b.symbols s' with
      | none =>
        simp only [hidx] at hsym hpr
        exact hb i s p hsym hpr
      | some j =>
        simp only [hidx] at hsym hpr
        by_cases hij : i = j
        · subst hij
          by_cases hlt : i < b.prices.length
          · rw [List.get?_set_eq_of_lt p' hlt] at hpr
            obtain rfl : p' = p := Option.some.inj hpr
            have hs' : s' = s := by
              have hg := lastIdxOf_get b.symbols s' i hidx
              rw [hg] at hsym
              exact Option.some.inj hsym
            exact Or.inr (hs' ▸ hops s' p' (List.mem_cons_self _ _))
          · rw [List.set_eq_of_length_le (Nat.le_of_not_lt hlt)] at hpr
            exact hb i s p hsym hpr
        · rw [List.get?_set_ne p' b.prices (Ne.symm hij)] at hpr
          exact hb i s p hsym hpr

/-- Claim C9: for any sequence of atomic writes interleaved with snapshots,
every `(symbol, price)` row a snapshot observes carries either the `0.0`
initialization value or a price some `update` in the executed trace actually
wrote for that very symbol — never a torn or garbage value. -/
theorem claim_C9 (symbols : List (List Char)) (ops : List TableOp)
    (s : List Char) (p : ℚ)
    (hmem : (s, p) ∈ (runTrace (SharedPriceBook.create symbols) ops).read_all) :
    p = 0 ∨ TableOp.update s p ∈ ops := by
  rw [SharedPriceBook.read_all] at hmem
  obtain ⟨i, hi⟩ := List.get?_of_mem hmem
  rw [List.get?_zip_eq_some] at hi
  exact runTrace_inv (fun s' p' => TableOp.update s' p' ∈ ops) ops
    (fun _ _ h => h) (SharedPriceBook.create symbols)
    (fun _ _ p _ hpr => Or.inl (get?_replicate_zero _ _ p hpr))
    i s p hi.1 hi.2

theorem claim_C9_witness :
    ((AAPL, (5 : ℚ)) ∈
      (runTrace (SharedPriceBook.create [AAPL, MSFT])
        [.update AAPL 5, .snapshot]).read_all) ∧
    ((5 : ℚ) = 0 ∨
      TableOp.update AAPL 5 ∈ [TableOp.update AAPL 5, TableOp.snapshot]) :=
  ⟨List.mem_cons_self _ _,
    claim_C9 [AAPL, MSFT] [.update AAPL 5, .snapshot] AAPL 5
      (List.mem_cons_self _ _)⟩

theorem alternating_cons (a : Side) (l : List Side)
    (hhd : ∀ s t, l = s :: t → a ≠ s) (hl : Alternating l) :
    Alternating (a :: l) := by
  cases l with
  | nil => trivial
  | cons s t => exact ⟨hhd s t rfl, hl⟩

/-- After a BUY the position is LONG and only a SELL can be emitted next, and
symmetrically; this and alternation together, by induction over the signal
sequence. -/
theorem runOrders_spec (sigs : List Signal) : ∀ pos : Position,
    Alternating (runOrders pos sigs) ∧
    (∀ s t, runOrders pos sigs = s :: t →
      (pos = .LONG → s = .SELL) ∧ (pos = .SHORT → s = .BUY)) := by
  induction sigs with
  | nil =>
    intro pos
    exact ⟨trivial, fun s t h => List.noConfusion h⟩
  | cons sig sigs ih =>
    intro pos
    cases sig with
    | NEUTRAL =>
      rw [show runOrders pos (.NEUTRAL :: sigs) = runOrders pos sigs from rfl]
      exact ih pos
    | BUY =>
      by_cases hp : pos = .LONG
      · subst hp
        rw [show runOrders .LONG (.BUY :: sigs) = runOrders .LONG sigs from rfl]
        exact ⟨(ih .LONG).1, fun s t h =>
          ⟨fun _ => ((ih .LONG).2 s t h).1 rfl, fun hc => Position.noConfusion hc⟩⟩
      · have hrw : runOrders pos (.BUY :: sigs) = .BUY :: runOrders .LONG sigs := by
          rw [runOrders, orderStep]
          rw [if_pos hp]
        rw [hrw]
        constructor
        · refine alternating_cons _ _ ?_ (ih .LONG).1
          intro s t h hc
          have := (((ih .LONG).2 s t h).1 rfl)
          subst hc
          exact Side.noConfusion this
        · intro s t h
          obtain rfl : Side.BUY = s := (List.cons.inj h).1
          exact ⟨fun hc => absurd hc hp, fun _ => rfl⟩
    | SELL =>
      by_cases hp : pos = .SHORT
      · subst hp
        rw [show runOrders .SHORT (.SELL :: sigs) = runOrders .SHORT sigs from rfl]
        exact ⟨(ih .SHORT).1, fun s t h =>
          ⟨fun hc => Position.noConfusion hc, fun _ => ((ih .SHORT).2 s t h).2 rfl⟩⟩
      · have hrw : runOrders pos (.SELL :: sigs) = .SELL :: runOrders .SHORT sigs := by
          rw [runOrders, orderStep]
          rw [if_pos hp]
        rw [hrw]
        constructor
        · refine alternating_cons _ _ ?_ (ih .SHORT).1
          intro s t h hc
          have := (((ih .SHORT).2 s t h).2 rfl)
          subst hc
          exact Side.noConfusion this
        · intro s t h
          obtain rfl : Side.SELL = s := (List.cons.inj h).1
          exact ⟨fun _ => rfl, fun hc => absurd hc hp⟩

/-- Claim C10: starting from the initial `position = 'NONE'`
(`StrategyState.__init__`), the orders the strategy generates for any one
symbol strictly alternate in side over its lifetime, for every sequence of
final signals: the first may be BUY or SELL, and each subsequent order has
the opposite side of the previous one. -/
theorem claim_C10 (sigs : List Signal) :
    Alternating (runOrders .NONE sigs) :=
  (runOrders_spec sigs .NONE).1

/-! ### Round-trip lemmas for the order wire format -/

theorem digitChar_isDigit (d : Nat) (h : d < 10) :
    isDigitChar (digitChar d) = true := by
  interval_cases d <;> decide

theorem digitVal_digitChar (d : Nat) (h : d < 10) :
    digitVal (digitChar d) = d := by
  interval_cases d <;> decide

theorem digitsVal_append (xs : List Char) (c : Char) :
    digitsVal (xs ++ [c]) = 10 * digitsVal xs + digitVal c := by
  rw [digitsVal, digitsVal, List.foldl_append]
  rfl

theorem char_ne_of_digit (c : Char) (h : isDigitChar c = true) (d : Char)
    (hd : isDigitChar d = false) : c ≠ d := fun he => by
  rw [he, hd] at h
  exact Bool.noConfusion h

theorem not_ws_of_digit (c : Char) (h : isDigitChar c = true) :
    isJsonWs c = false := by
  have hb : 48 ≤ c.toNat ∧ c.toNat ≤ 57 := by simpa [isDigitChar] using h
  have h1 : c ≠ ' ' := fun hc => by rw [hc] at hb; exact absurd hb (by decide)
  have h2 : c ≠ '\t' := fun hc => by rw [hc] at hb; exact absurd hb (by decide)
  have h3 : c ≠ '\n' := fun hc => by rw [hc] at hb; exact absurd hb (by decide)
  have h4 : c ≠ '\r' := fun hc => by rw [hc] at hb; exact absurd hb (by decide)
  simp [isJsonWs, h1, h2, h3, h4]

theorem not_delim_of_plain (c : Char) (h : plainChar c = true) :
    c ≠ MESSAGE_DELIMITER := fun hc => by
  rw [hc] at h
  exact absurd h (by decide)

theorem ne_qchar_of_plain (c : Char) (h : plainChar c = true) : c ≠ qchar :=
  fun hc => by
    rw [hc] at h
    exact absurd h (by decide)

theorem natDigitsFuel_spec (f : Nat) : ∀ n, n < f →
    digitsVal (natDigitsFuel f n) = n ∧ natDigitsFuel f n ≠ [] ∧
    ∀ c ∈ natDigitsFuel f n, isDigitChar c = true := by
  induction f with
  | zero => intro n h; exact absurd h (Nat.not_lt_zero n)
  | succ f ih =>
    intro n h
    rw [natDigitsFuel]
    by_cases h10 : n < 10
    · rw [if_pos h10]
      refine ⟨?_, by simp, ?_⟩
      · show 10 * 0 + digitVal (digitChar n) = n
        rw [digitVal_digitChar n h10]
        omega
      · intro c hc
        rw [List.mem_singleton] at hc
        subst hc
        exact digitChar_isDigit n h10
    · rw [if_neg h10]
      have hdiv : n / 10 < f := by
        have h1 : n / 10 < n := Nat.div_lt_self (by omega) (by omega)
        omega
      obtain ⟨hv, hne, hd⟩ := ih (n / 10) hdiv
      refine ⟨?_, by simp, ?_⟩
      · rw [digitsVal_append, hv, digitVal_digitChar _ (Nat.mod_lt n (by omega))]
        omega
      · intro c hc
        rcases List.mem_append.mp hc with h1 | h1
        · exact hd c h1
        · rw [List.mem_singleton] at h1
          subst h1
          exact digitChar_isDigit _ (Nat.mod_lt n (by omega))

theorem natToChars_val (n : Nat) : digitsVal (natToChars n) = n :=
  (natDigitsFuel_spec (n + 1) n (Nat.lt_succ_self n)).1

theorem natToChars_ne_nil (n : Nat) : natToChars n ≠ [] :=
  (natDigitsFuel_spec (n + 1) n (Nat.lt_succ_self n)).2.1

theorem natToChars_digits (n : Nat) :
    ∀ c ∈ natToChars n, isDigitChar c = true :=
  (natDigitsFuel_spec (n + 1) n (Nat.lt_succ_self n)).2.2

theorem padDigits_length (k : Nat) : ∀ m, (padDigits k m).length = k := by
  induction k with
  | zero => intro m; rfl
  | succ k ih =>
    intro m
    rw [padDigits, List.length_append, ih]
    rfl

theorem padDigits_digits (k : Nat) :
    ∀ m, ∀ c ∈ padDigits k m, isDigitChar c = true := by
  induction k with
  | zero => intro m c hc; exact absurd hc (List.not_mem_nil c)
  | succ k ih =>
    intro m c hc
    rw [padDigits] at hc
    rcases List.mem_append.mp hc with h1 | h1
    · exact ih (m / 10) c h1
    · rw [List.mem_singleton] at h1
      subst h1
      exact digitChar_isDigit _ (Nat.mod_lt m (by omega))

theorem padDigits_val (k : Nat) : ∀ m, m < 10 ^ k →
    digitsVal (padDigits k m) = m := by
  induction k with
  | zero =>
    intro m hm
    rw [pow_zero] at hm
    interval_cases m
    rfl
  | succ k ih =>
    intro m hm
    have hdiv : m / 10 < 10 ^ k := by
      rw [Nat.div_lt_iff_lt_mul (by omega)]
      calc m < 10 ^ (k + 1) := hm
        _ = 10 ^ k * 10 := by ring
    rw [padDigits, digitsVal_append, ih (m / 10) hdiv,
      digitVal_digitChar _ (Nat.mod_lt m (by omega))]
    omega

theorem takeDigits_append (ds rest : List Char)
    (hds : ∀ c ∈ ds, isDigitChar c = true)
    (hrest : ∀ c, rest.head? = some c → isDigitChar c = false) :
    takeDigits (ds ++ rest) = (ds, rest) := by
  induction ds with
  | nil =>
    cases rest with
    | nil => rfl
    | cons c t =>
      rw [List.nil_append, takeDigits, hrest c rfl]
      simp
  | cons d ds ih =>
    rw [List.cons_append, takeDigits, hds d (List.mem_cons_self _ _)]
    rw [ih (fun c hc => hds c (List.mem_cons_of_mem _ hc))]
    simp

theorem parseStrBody_append (k rest : List Char)
    (hk : ∀ c ∈ k, c ≠ qchar) :
    parseStrBody (k ++ qchar :: rest) = some (k, rest) := by
  induction k with
  | nil => rw [List.nil_append, parseStrBody, if_pos rfl]
  | cons c cs ih =>
    rw [List.cons_append, parseStrBody,
      if_neg (hk c (List.mem_cons_self _ _)),
      ih (fun c hc => hk c (List.mem_cons_of_mem _ hc))]

theorem skipWs_not_ws (c : Char) (t : List Char) (h : isJsonWs c = false) :
    skipWs (c :: t) = c :: t := by
  rw [skipWs, List.dropWhile_cons, h]
  simp

theorem skipWs_ws (c : Char) (t : List Char) (h : isJsonWs c = true) :
    skipWs (c :: t) = skipWs t := by
  rw [skipWs, List.dropWhile_cons, h]
  simp [skipWs]

theorem padDigits_ne_nil (flen fp : Nat) (hflen : 1 ≤ flen) :
    (padDigits flen fp).isEmpty = false := by
  have hlen := padDigits_length flen fp
  cases hp : padDigits flen fp with
  | nil =>
    rw [hp] at hlen
    simp at hlen
    omega
  | cons a b => rfl

/-- Parsing plain digits followed by a non-digit, non-point remainder yields
an integer token. -/
theorem parseNumAfterSign_int (neg : Bool) (m : Nat) (rest : List Char)
    (hrest : ∀ c, rest.head? = some c → isDigitChar c = false ∧ c ≠ '.') :
    parseNumAfterSign neg (natToChars m ++ rest) =
      some (.jint (intOfParts neg (natToChars m)), rest) := by
  have htake : takeDigits (natToChars m ++ rest) = (natToChars m, rest) :=
    takeDigits_append _ rest (natToChars_digits m) (fun c hc => (hrest c hc).1)
  have hne : (natToChars m).isEmpty = false := by
    obtain ⟨d, ds, hds⟩ := List.exists_cons_of_ne_nil (natToChars_ne_nil m)
    rw [hds]; rfl
  rw [parseNumAfterSign]
  simp only [htake, hne, Bool.false_eq_true, if_false]
  cases hr : rest with
  | nil => rfl
  | cons c t =>
    simp only [if_neg ((hrest c (hr ▸ rfl)).2)]

/-- Parsing a serialized decimal followed by a non-digit remainder yields a
float token with exactly the original parts. -/
theorem parseNumAfterSign_float (neg : Bool) (ip fp flen : Nat)
    (rest : List Char) (hflen : 1 ≤ flen) (hfp : fp < 10 ^ flen)
    (hrest : ∀ c, rest.head? = some c → isDigitChar c = false) :
    parseNumAfterSign neg
        (natToChars ip ++ '.' :: (padDigits flen fp ++ rest)) =
      some (.jfloat ⟨neg, ip, fp, flen⟩, rest) := by
  have htake : takeDigits (natToChars ip ++ ('.' :: (padDigits flen fp ++ rest))) =
      (natToChars ip, '.' :: (padDigits flen fp ++ rest)) :=
    takeDigits_append _ _ (natToChars_digits ip)
      (fun c hc => by
        rw [List.head?_cons] at hc
        obtain rfl : '.' = c := Option.some.inj hc
        decide)
  have hne : (natToChars ip).isEmpty = false := by
    obtain ⟨d, ds, hds⟩ := List.exists_cons_of_ne_nil (natToChars_ne_nil ip)
    rw [hds]; rfl
  have htakef : takeDigits (padDigits flen fp ++ rest) = (padDigits flen fp, rest) :=
    takeDigits_append _ rest (padDigits_digits flen fp) (fun c hc => hrest c hc)
  rw [parseNumAfterSign]
  simp only [htake, hne, Bool.false_eq_true, if_false, htakef,
    padDigits_ne_nil flen fp hflen, natToChars_val,
    padDigits_val flen fp hfp, padDigits_length]
  rw [if_pos trivial]

theorem natToChars_head_not_minus (m : Nat) (rest : List Char) :
    parseNumberTok (natToChars m ++ rest) =
      parseNumAfterSign false (natToChars m ++ rest) := by
  obtain ⟨d, ds, hds⟩ := List.exists_cons_of_ne_nil (natToChars_ne_nil m)
  have hddig : isDigitChar d = true :=
    natToChars_digits m d (hds ▸ List.mem_cons_self d ds)
  rw [hds, List.cons_append, parseNumberTok,
    if_neg (char_ne_of_digit d hddig '-' (by decide)), ← List.cons_append, ← hds]

/-- Parsing an `intToChars` serialization followed by a non-digit,
non-point remainder recovers exactly the integer. -/
theorem parseNumberTok_int (n : Int) (rest : List Char)
    (hrest : ∀ c, rest.head? = some c → isDigitChar c = false ∧ c ≠ '.') :
    parseNumberTok (intToChars n ++ rest) = some (.jint n, rest) := by
  by_cases hn : n < 0
  · rw [intToChars, if_pos hn, List.cons_append, parseNumberTok, if_pos rfl,
      parseNumAfterSign_int true n.natAbs rest hrest]
    have hval : intOfParts true (natToChars n.natAbs) = n := by
      rw [intOfParts, if_pos rfl, natToChars_val]
      omega
    rw [hval]
  · rw [intToChars, if_neg hn, natToChars_head_not_minus,
      parseNumAfterSign_int false n.natAbs rest hrest]
    have hval : intOfParts false (natToChars n.natAbs) = n := by
      rw [intOfParts, if_neg (by simp), natToChars_val]
      omega
    rw [hval]

/-- Parsing a `floatToChars` serialization followed by a non-digit remainder
recovers exactly the decimal parts. -/
theorem parseNumberTok_float (f : FloatParts) (rest : List Char)
    (hflen : 1 ≤ f.flen) (hfp : f.fp < 10 ^ f.flen)
    (hrest : ∀ c, rest.head? = some c → isDigitChar c = false) :
    parseNumberTok (floatToChars f ++ rest) = some (.jfloat f, rest) := by
  obtain ⟨neg, ip, fp, flen⟩ := f
  dsimp only at hflen hfp
  cases neg
  · show parseNumberTok ((cond false ['-'] [] ++ natToChars ip ++
        '.' :: padDigits flen fp) ++ rest) = _
    rw [show (cond false ['-'] [] : List Char) = [] from rfl, List.nil_append,
      List.append_assoc, natToChars_head_not_minus]
    exact parseNumAfterSign_float false ip fp flen rest hflen hfp hrest
  · show parseNumberTok ((cond true ['-'] [] ++ natToChars ip ++
        '.' :: padDigits flen fp) ++ rest) = _
    rw [show (cond true ['-'] [] : List Char) = ['-'] from rfl]
    rw [List.append_assoc, List.append_assoc, List.cons_append, List.nil_append,
      parseNumberTok, if_pos rfl]
    exact parseNumAfterSign_float true ip fp flen rest hflen hfp hrest

theorem parseJsonValue_serialized (v : JVal) (hv : ValidJVal v)
    (rest : List Char)
    (hrest : ∀ c, rest.head? = some c → isDigitChar c = false ∧ c ≠ '.') :
    parseJsonValue (jvalToChars v ++ rest) = some (v, rest) := by
  cases v with
  | jstr s =>
    have hks : ∀ c ∈ s, c ≠ qchar := fun c hc => ne_qchar_of_plain c (hv c hc)
    rw [jvalToChars]
    simp only [List.cons_append, List.append_assoc, List.singleton_append,
      List.nil_append]
    rw [parseJsonValue, if_pos rfl, parseStrBody_append s rest hks]
  | jint n =>
    rw [jvalToChars]
    have hcons : ∃ c t, intToChars n ++ rest = c :: t ∧ c ≠ qchar := by
      rw [intToChars]
      by_cases hn : n < 0
      · rw [if_pos hn]
        exact ⟨'-', natToChars n.natAbs ++ rest, rfl, by decide⟩
      · rw [if_neg hn]
        obtain ⟨d, ds, hds⟩ := List.exists_cons_of_ne_nil (natToChars_ne_nil n.natAbs)
        refine ⟨d, ds ++ rest, by rw [hds, List.cons_append], ?_⟩
        exact char_ne_of_digit d
          (natToChars_digits _ d (hds ▸ List.mem_cons_self d ds)) qchar (by decide)
    obtain ⟨c, t, heq, hcq⟩ := hcons
    rw [heq, parseJsonValue, if_neg hcq, ← heq, parseNumberTok_int n rest hrest]
  | jfloat f =>
    rw [jvalToChars]
    have hcons : ∃ c t, floatToChars f ++ rest = c :: t ∧ c ≠ qchar := by
      rw [floatToChars]
      cases hb : f.neg
      · obtain ⟨d, ds, hds⟩ := List.exists_cons_of_ne_nil (natToChars_ne_nil f.ip)
        refine ⟨d, ds ++ ('.' :: padDigits f.flen f.fp ++ rest), ?_, ?_⟩
        · rw [show (cond false ['-'] [] : List Char) = [] from rfl, List.nil_append,
            hds]
          simp [List.cons_append, List.append_assoc]
        · exact char_ne_of_digit d
            (natToChars_digits _ d (hds ▸ List.mem_cons_self d ds)) qchar (by decide)
      · refine ⟨'-', (natToChars f.ip ++ '.' :: padDigits f.flen f.fp) ++ rest, ?_, by decide⟩
        rw [show (cond true ['-'] [] : List Char) = ['-'] from rfl]
        simp [List.cons_append, List.append_assoc]
    obtain ⟨c, t, heq, hcq⟩ := hcons
    rw [heq, parseJsonValue, if_neg hcq, ← heq,
      parseNumberTok_float f rest hv.1 hv.2 (fun c hc => (hrest c hc).1)]

theorem jval_skipWs (v : JVal) (x : List Char) :
    skipWs (jvalToChars v ++ x) = jvalToChars v ++ x := by
  cases v with
  | jstr s =>
    rw [jvalToChars, List.cons_append]
    exact skipWs_not_ws qchar _ (by decide)
  | jint n =>
    rw [jvalToChars, intToChars]
    by_cases hn : n < 0
    · rw [if_pos hn, List.cons_append]
      exact skipWs_not_ws '-' _ (by decide)
    · rw [if_neg hn]
      obtain ⟨d, ds, hds⟩ := List.exists_cons_of_ne_nil (natToChars_ne_nil n.natAbs)
      rw [hds, List.cons_append]
      exact skipWs_not_ws d _
        (not_ws_of_digit d (natToChars_digits _ d (hds ▸ List.mem_cons_self d ds)))
  | jfloat f =>
    rw [jvalToChars, floatToChars]
    cases hb : f.neg
    · rw [show (cond false ['-'] [] : List Char) = [] from rfl, List.nil_append]
      obtain ⟨d, ds, hds⟩ := List.exists_cons_of_ne_nil (natToChars_ne_nil f.ip)
      rw [List.append_assoc, hds, List.cons_append]
      exact skipWs_not_ws d _
        (not_ws_of_digit d (natToChars_digits _ d (hds ▸ List.mem_cons_self d ds)))
    · rw [show (cond true ['-'] [] : List Char) = ['-'] from rfl, List.cons_append,
        List.nil_append]
      exact skipWs_not_ws '-' _ (by decide)

theorem parseMembers_ws (f : Nat) (c : Char) (hc : isJsonWs c = true)
    (x : List Char) : parseMembers f (c :: x) = parseMembers f x := by
  cases f with
  | zero => rfl
  | succ f => rw [parseMembers, parseMembers, skipWs_ws c x hc]

theorem parseMembers_serialized (ps : List (List Char × JVal)) :
    ∀ (fuel : Nat) (rest : List Char),
      ps.length ≤ fuel → ps ≠ [] → (∀ kv ∈ ps, GoodPair kv) →
      parseMembers fuel (joinComma (ps.map pairToChars) ++ rbrace :: rest) =
        some (ps, rest) := by
  induction ps with
  | nil => intro fuel rest _ hne _; exact absurd rfl hne
  | cons kv ps ih =>
    intro fuel rest hlen _ hgood
    obtain ⟨k, v⟩ := kv
    obtain ⟨hk, hv⟩ := hgood (k, v) (List.mem_cons_self _ _)
    cases fuel with
    | zero => simp at hlen
    | succ f =>
      have hks : ∀ c ∈ k, c ≠ qchar := fun c hc => ne_qchar_of_plain c (hk c hc)
      have s1 : ∀ t : List Char, skipWs (qchar :: t) = qchar :: t :=
        fun t => skipWs_not_ws _ _ (by decide)
      have s2 : ∀ t : List Char, skipWs (':' :: t) = ':' :: t :=
        fun t => skipWs_not_ws _ _ (by decide)
      have s3 : ∀ t : List Char, skipWs (' ' :: t) = skipWs t :=
        fun t => skipWs_ws _ _ (by decide)
      have s4 : ∀ t : List Char, skipWs (rbrace :: t) = rbrace :: t :=
        fun t => skipWs_not_ws _ _ (by decide)
      have hbrq : ¬(rbrace = ',') := by decide
      have h2g : ∀ (c : Char) (X : List Char), isDigitChar c = false → c ≠ '.' →
          parseJsonValue (jvalToChars v ++ c :: X) = some (v, c :: X) := by
        intro c X hc1 hc2
        refine parseJsonValue_serialized v hv (c :: X) ?_
        intro c' hc'
        rw [List.head?_cons] at hc'
        obtain rfl : c = c' := Option.some.inj hc'
        exact ⟨hc1, hc2⟩
      cases ps with
      | nil =>
        have h1 : parseStrBody (k ++ qchar :: ':' :: ' ' ::
            (jvalToChars v ++ rbrace :: rest)) =
            some (k, ':' :: ' ' :: (jvalToChars v ++ rbrace :: rest)) :=
          parseStrBody_append k _ hks
        have h2 := h2g rbrace rest (by decide) (by decide)
        rw [parseMembers]
        simp only [List.map_cons, List.map_nil, joinComma, pairToChars,
          List.cons_append, List.append_assoc, List.nil_append,
          s1, s2, s3, s4, jval_skipWs, h1, h2, eq_self_iff_true, if_true,
          hbrq, if_false]
      | cons kv2 ps' =>
        have s5 : ∀ t : List Char, skipWs (',' :: t) = ',' :: t :=
          fun t => skipWs_not_ws _ _ (by decide)
        have key : joinComma (((k, v) :: kv2 :: ps').map pairToChars) =
            pairToChars (k, v) ++ ',' :: ' ' ::
              joinComma ((kv2 :: ps').map pairToChars) := rfl
        rw [key]
        have hihJ := ih f rest (by simpa using Nat.le_of_succ_le_succ hlen)
          (by simp) (fun kv' hkv' => hgood kv' (List.mem_cons_of_mem _ hkv'))
        generalize hJ : joinComma ((kv2 :: ps').map pairToChars) = J at hihJ ⊢
        have hws : parseMembers f (' ' :: (J ++ rbrace :: rest)) =
            parseMembers f (J ++ rbrace :: rest) :=
          parseMembers_ws f ' ' (by decide) _
        have h1 : parseStrBody (k ++ qchar :: ':' :: ' ' ::
            (jvalToChars v ++ ',' :: ' ' :: (J ++ rbrace :: rest))) =
            some (k, ':' :: ' ' ::
              (jvalToChars v ++ ',' :: ' ' :: (J ++ rbrace :: rest))) :=
          parseStrBody_append k _ hks
        have h2 := h2g ',' (' ' :: (J ++ rbrace :: rest)) (by decide) (by decide)
        rw [parseMembers]
        simp only [pairToChars, List.cons_append, List.append_assoc,
          s1, s2, s3, s4, s5, jval_skipWs, h1, h2, eq_self_iff_true, if_true,
          hws, hihJ]

theorem pairToChars_length_pos (kv : List Char × JVal) :
    1 ≤ (pairToChars kv).length := by
  obtain ⟨k, v⟩ := kv
  rw [pairToChars]
  simp

theorem length_le_joinComma (ps : List (List Char × JVal)) :
    ps.length ≤ (joinComma (ps.map pairToChars)).length := by
  induction ps with
  | nil => simp [joinComma]
  | cons kv ps ih =>
    cases ps with
    | nil =>
      rw [List.map_cons, List.map_nil, joinComma]
      simpa using pairToChars_length_pos kv
    | cons kv2 t =>
      rw [show joinComma ((kv :: kv2 :: t).map pairToChars) =
          pairToChars kv ++ ',' :: ' ' ::
            joinComma ((kv2 :: t).map pairToChars) from rfl]
      have h1 := pairToChars_length_pos kv
      simp only [List.length_append, List.length_cons]
      simp only [List.length_cons] at ih
      omega

/-- `joinComma` over a nonempty member list starts with the first key's
opening quote. -/
theorem joinComma_cons_shape (kv : List Char × JVal)
    (ps : List (List Char × JVal)) :
    ∃ t, joinComma ((kv :: ps).map pairToChars) = qchar :: t := by
  obtain ⟨k, v⟩ := kv
  cases ps with
  | nil => exact ⟨k ++ qchar :: ':' :: ' ' :: jvalToChars v, rfl⟩
  | cons kv2 t =>
    refine ⟨k ++ qchar :: ':' :: ' ' :: (jvalToChars v ++ ',' :: ' ' ::
      joinComma ((kv2 :: t).map pairToChars)), ?_⟩
    rw [show joinComma (((k, v) :: kv2 :: t).map pairToChars) =
        pairToChars (k, v) ++ ',' :: ' ' ::
          joinComma ((kv2 :: t).map pairToChars) from rfl,
      pairToChars]
    simp [List.cons_append, List.append_assoc]

/-- `json.loads` inverts `json.dumps` on every well-formed flat object:
the decoded dict has exactly the serialized key/value pairs. -/
theorem loadsObj_dumpsObj (ps : List (List Char × JVal)) (hne : ps ≠ [])
    (hgood : ∀ kv ∈ ps, GoodPair kv) :
    loadsObj (dumpsObj ps) = some ps := by
  obtain ⟨kv0, ps', rfl⟩ := List.exists_cons_of_ne_nil hne
  obtain ⟨jt, hjt⟩ := joinComma_cons_shape kv0 ps'
  have hjoin2 : (dumpsObj (kv0 :: ps')).length =
      (joinComma ((kv0 :: ps').map pairToChars)).length + 2 := by
    rw [dumpsObj]
    simp
  have hfuel : (kv0 :: ps').length ≤ (dumpsObj (kv0 :: ps')).length + 1 := by
    have h1 := length_le_joinComma (kv0 :: ps')
    omega
  have hmem := parseMembers_serialized (kv0 :: ps')
    ((dumpsObj (kv0 :: ps')).length + 1) [] hfuel (by simp) hgood
  have hskip : skipWs (joinComma ((kv0 :: ps').map pairToChars) ++ [rbrace]) =
      qchar :: (jt ++ [rbrace]) := by
    rw [hjt, List.cons_append]
    exact skipWs_not_ws qchar _ (by decide)
  have hskip0 : skipWs (dumpsObj (kv0 :: ps')) = dumpsObj (kv0 :: ps') := by
    rw [show dumpsObj (kv0 :: ps') =
        lbrace :: (joinComma ((kv0 :: ps').map pairToChars) ++ [rbrace]) from rfl]
    exact skipWs_not_ws lbrace _ (by decide)
  rw [loadsObj, hskip0]
  rw [show loadsObjCore ((dumpsObj (kv0 :: ps')).length + 1) (dumpsObj (kv0 :: ps')) =
      loadsObjCore ((dumpsObj (kv0 :: ps')).length + 1)
        (lbrace :: (joinComma ((kv0 :: ps').map pairToChars) ++ [rbrace])) from rfl]
  rw [loadsObjCore, if_pos rfl, hskip, loadsObjInner,
    if_neg (show ¬(qchar = rbrace) by decide)]
  have hmem2 : parseMembers ((dumpsObj (kv0 :: ps')).length + 1)
      (qchar :: (jt ++ [rbrace])) = some (kv0 :: ps', []) := by
    rw [← List.cons_append, ← hjt]
    exact hmem
  rw [hmem2]
  rfl

theorem not_delim_of_digitChars (l : List Char)
    (h : ∀ c ∈ l, isDigitChar c = true) : MESSAGE_DELIMITER ∉ l :=
  fun hm => absurd (h _ hm) (by decide)

theorem delim_not_mem_intToChars (n : Int) :
    MESSAGE_DELIMITER ∉ intToChars n := by
  rw [intToChars]
  by_cases hn : n < 0
  · rw [if_pos hn]
    intro hm
    rcases List.mem_cons.mp hm with h1 | h1
    · exact absurd h1 (by decide)
    · exact not_delim_of_digitChars _ (natToChars_digits n.natAbs) h1
  · rw [if_neg hn]
    exact not_delim_of_digitChars _ (natToChars_digits n.natAbs)

theorem delim_not_mem_floatToChars (f : FloatParts) :
    MESSAGE_DELIMITER ∉ floatToChars f := by
  rw [floatToChars]
  intro hm
  rcases List.mem_append.mp hm with h1 | h1
  · rcases List.mem_append.mp h1 with h2 | h2
    · cases hb : f.neg
      · rw [hb, show (cond false ['-'] [] : List Char) = [] from rfl] at h2
        exact absurd h2 (List.not_mem_nil _)
      · rw [hb, show (cond true ['-'] [] : List Char) = ['-'] from rfl,
          List.mem_singleton] at h2
        exact absurd h2 (by decide)
    · exact not_delim_of_digitChars _ (natToChars_digits f.ip) h2
  · rcases List.mem_cons.mp h1 with h3 | h3
    · exact absurd h3 (by decide)
    · exact not_delim_of_digitChars _ (padDigits_digits f.flen f.fp) h3

theorem delim_not_mem_jval (v : JVal) (hv : ValidJVal v) :
    MESSAGE_DELIMITER ∉ jvalToChars v := by
  cases v with
  | jstr s =>
    rw [jvalToChars]
    intro hm
    rcases List.mem_cons.mp hm with h1 | h1
    · exact absurd h1 (by decide)
    · rcases List.mem_append.mp h1 with h2 | h2
      · exact not_delim_of_plain _ (hv _ h2) rfl
      · rw [List.mem_singleton] at h2
        exact absurd h2 (by decide)
  | jint n => exact delim_not_mem_intToChars n
  | jfloat f => exact delim_not_mem_floatToChars f

theorem delim_not_mem_pair (kv : List Char × JVal) (h : GoodPair kv) :
    MESSAGE_DELIMITER ∉ pairToChars kv := by
  obtain ⟨k, v⟩ := kv
  rw [pairToChars]
  intro hm
  rcases List.mem_cons.mp hm with h1 | h1
  · exact absurd h1 (by decide)
  · rcases List.mem_append.mp h1 with h2 | h2
    · exact not_delim_of_plain _ (h.1 _ h2) rfl
    · rcases List.mem_cons.mp h2 with h3 | h3
      · exact absurd h3 (by decide)
      · rcases List.mem_cons.mp h3 with h4 | h4
        · exact absurd h4 (by decide)
        · rcases List.mem_cons.mp h4 with h5 | h5
          · exact absurd h5 (by decide)
          · exact delim_not_mem_jval v h.2 h5

theorem delim_not_mem_joinComma (ps : List (List Char × JVal))
    (h : ∀ kv ∈ ps, GoodPair kv) :
    MESSAGE_DELIMITER ∉ joinComma (ps.map pairToChars) := by
  induction ps with
  | nil => simp [joinComma]
  | cons kv ps ih =>
    cases ps with
    | nil =>
      rw [List.map_cons, List.map_nil, joinComma]
      exact delim_not_mem_pair kv (h kv (List.mem_cons_self _ _))
    | cons kv2 t =>
      rw [show joinComma ((kv :: kv2 :: t).map pairToChars) =
          pairToChars kv ++ ',' :: ' ' ::
            joinComma ((kv2 :: t).map pairToChars) from rfl]
      intro hm
      rcases List.mem_append.mp hm with h1 | h1
      · exact delim_not_mem_pair kv (h kv (List.mem_cons_self _ _)) h1
      · rcases List.mem_cons.mp h1 with h2 | h2
        · exact absurd h2 (by decide)
        · rcases List.mem_cons.mp h2 with h3 | h3
          · exact absurd h3 (by decide)
          · exact ih (fun kv' hkv' => h kv' (List.mem_cons_of_mem _ hkv')) h3

/-- The serialized order text contains no delimiter byte, so framing cannot
split it. -/
theorem delim_not_mem_dumpsObj (ps : List (List Char × JVal))
    (h : ∀ kv ∈ ps, GoodPair kv) :
    MESSAGE_DELIMITER ∉ dumpsObj ps := by
  rw [dumpsObj]
  intro hm
  rcases List.mem_cons.mp hm with h1 | h1
  · exact absurd h1 (by decide)
  · rcases List.mem_append.mp h1 with h2 | h2
    · exact delim_not_mem_joinComma ps h h2
    · rw [List.mem_singleton] at h2
      exact absurd h2 (by decide)

theorem orderJson_good (o : Order) (h : ValidOrder o) :
    ∀ kv ∈ orderJson o, GoodPair kv := by
  intro kv hkv
  rw [orderJson] at hkv
  obtain ⟨hsym, hp1, hp2, ht1, ht2⟩ := h
  rcases List.mem_cons.mp hkv with rfl | hkv
  · exact ⟨by show ∀ c ∈ "order_id".toList, plainChar c = true; decide, trivial⟩
  rcases List.mem_cons.mp hkv with rfl | hkv
  · exact ⟨by show ∀ c ∈ "symbol".toList, plainChar c = true; decide, hsym⟩
  rcases List.mem_cons.mp hkv with rfl | hkv
  · refine ⟨by show ∀ c ∈ "side".toList, plainChar c = true; decide, ?_⟩
    show ValidJVal (.jstr (sideStr o.side))
    cases o.side
    · show ∀ c ∈ ['B', 'U', 'Y'], plainChar c = true
      decide
    · show ∀ c ∈ ['S', 'E', 'L', 'L'], plainChar c = true
      decide
  rcases List.mem_cons.mp hkv with rfl | hkv
  · exact ⟨by show ∀ c ∈ "quantity".toList, plainChar c = true; decide, trivial⟩
  rcases List.mem_cons.mp hkv with rfl | hkv
  · exact ⟨by show ∀ c ∈ "price".toList, plainChar c = true; decide, hp1, hp2⟩
  rcases List.mem_cons.mp hkv with rfl | hkv
  · exact ⟨by show ∀ c ∈ "timestamp".toList, plainChar c = true; decide, ht1, ht2⟩
  exact absurd hkv (List.not_mem_nil kv)

/-- Claim C6: for every valid order record, serializing it to its JSON wire
form with the newline delimiter appended (`_send_order`), then
frame-splitting on the receiving side (`OrderManager.receive_framed_message`)
and JSON-decoding the framed payload, yields the original object: the
decoded dict equals the serialized dict pair for pair, and re-reading the
fields out of it reconstructs a record equal in every field to the
original. -/
theorem claim_C6 (o : Order) (h : ValidOrder o) :
    OrderManager.receive_framed_message [] [sendOrderBytes o] =
      .ok (dumpsObj (orderJson o), [], []) ∧
    loadsObj (dumpsObj (orderJson o)) = some (orderJson o) ∧
    (loadsObj (dumpsObj (orderJson o))).bind orderFromPairs = some o := by
  have hgood := orderJson_good o h
  have hloads := loadsObj_dumpsObj (orderJson o) (by simp [orderJson]) hgood
  have hdelim := delim_not_mem_dumpsObj (orderJson o) hgood
  refine ⟨?_, hloads, ?_⟩
  · exact receiveFramed_first _ _ [] [] hdelim
  · rw [hloads]
    show orderFromPairs (orderJson o) = some o
    obtain ⟨oid, sym, sd, q, pr, ts⟩ := o
    cases sd <;> rfl

theorem claim_C6_witness :
    ValidOrder ⟨999, "MSFT".toList, .BUY, 100, ⟨false, 300, 50, 2⟩,
      ⟨false, 16999, 12, 2⟩⟩ ∧
    (OrderManager.receive_framed_message []
        [sendOrderBytes ⟨999, "MSFT".toList, .BUY, 100, ⟨false, 300, 50, 2⟩,
          ⟨false, 16999, 12, 2⟩⟩] =
      .ok (dumpsObj (orderJson ⟨999, "MSFT".toList, .BUY, 100,
        ⟨false, 300, 50, 2⟩, ⟨false, 16999, 12, 2⟩⟩), [], []) ∧
    loadsObj (dumpsObj (orderJson ⟨999, "MSFT".toList, .BUY, 100,
        ⟨false, 300, 50, 2⟩, ⟨false, 16999, 12, 2⟩⟩)) =
      some (orderJson ⟨999, "MSFT".toList, .BUY, 100, ⟨false, 300, 50, 2⟩,
        ⟨false, 16999, 12, 2⟩⟩) ∧
    (loadsObj (dumpsObj (orderJson ⟨999, "MSFT".toList, .BUY, 100,
        ⟨false, 300, 50, 2⟩, ⟨false, 16999, 12, 2⟩⟩))).bind orderFromPairs =
      some ⟨999, "MSFT".toList, .BUY, 100, ⟨false, 300, 50, 2⟩,
        ⟨false, 16999, 12, 2⟩⟩) :=
  ⟨by decide, claim_C6 ⟨999, "MSFT".toList, .BUY, 100, ⟨false, 300, 50, 2⟩,
    ⟨false, 16999, 12, 2⟩⟩ (by decide)⟩

set_option maxRecDepth 8000 in

/-- Claim C3 fails on the order sink: on a connection that delivers a valid
order, then a malformed frame, then another valid order, the order sink
executes only the first order and ends the connection handling on the decode
failure (`.parseAbort` — the outer handler then waits for a NEW connection),
even though the third frame is a perfectly decodable order.  The claim (and
the spec) require the malformed message to be skipped and the reading to
continue on the same connection. -/
theorem claim_C3_code_bug :
    omProcessConnection [] [malformedOrderStream] =
      ([orderJson demoOrder1], .parseAbort) ∧
    loadsObj "notjson".toList = none ∧
    loadsObj (dumpsObj (orderJson demoOrder2)) = some (orderJson demoOrder2) :=
  ⟨by decide, by decide, by decide⟩

/-- Claim C8: `cleanup` never raises, is idempotent (a second invocation
after a successful first — including after the backing storage was removed
by another path, since `s` ranges over all states — succeeds and changes
nothing), and it removes the backing storage exactly when the caller holds a
handle and is the creator; a non-creator's cleanup leaves the storage in
place. -/
theorem claim_C8 (s : ShmState) :
    (cleanup s).isOk = true ∧
    ∀ s', cleanup s = .ok s' →
      cleanup s' = .ok s' ∧
      s'.storage = (s.storage && !(s.shm && s.is_creator)) := by
  obtain ⟨a, b, c, d⟩ := s
  constructor
  · cases a <;> cases b <;> cases d <;> rfl
  · intro s' h
    cases a <;> cases b <;> cases d <;>
      · obtain rfl : _ = s' := Except.ok.inj h
        exact ⟨rfl, rfl⟩

theorem claim_C8_witness :
    ((cleanup ⟨true, true, false, true⟩).isOk = true) ∧
    (cleanup ⟨true, true, true, false⟩ = .ok ⟨true, true, true, false⟩ ∧
      (⟨true, true, true, false⟩ : ShmState).storage =
        (true && !(true && true))) :=
  ⟨(claim_C8 ⟨true, true, false, true⟩).1,
    (claim_C8 ⟨true, true, false, true⟩).2 ⟨true, true, true, false⟩ rfl⟩

end TradingSystem

